import Mathlib

/-!
# Verification of the pixforge quantization-and-dithering engine

Shallow embedding of `pixforge/dithers` (`__init__.py`, `floyd.py`,
`atkinson.py`, `sierra.py`, `bayer.py`) over exact arithmetic.

Conventions of the embedding:
* `uint8` samples are `ℤ` values in `[0, 255]`; the float32 working
  buffers of the error-diffusion loops are `ℚ` values.  IEEE float32
  arithmetic is idealized as exact rational arithmetic, and `np.rint`
  (IEEE round-half-to-even) is modelled by `rnd` below applied to the
  exact rational value.
* numpy elementwise operations are embedded per sample; the per-pixel
  3-vector operations of the diffusion loops act componentwise, so the
  channel is the unit of modelling.
* fallible code returns `Except`/`Option`.
-/

namespace Pixforge

/-- Round a rational to the nearest integer, ties to even.  Models
`np.rint` / IEEE round-half-to-even applied to the exact value. -/
def rnd (x : ℚ) : ℤ :=
  if Int.fract x < 1/2 then ⌊x⌋
  else if 1/2 < Int.fract x then ⌊x⌋ + 1
  else if 2 ∣ ⌊x⌋ then ⌊x⌋ else ⌊x⌋ + 1

/-- Rounding half away from zero, as the spec's §4.2 words it
("rounding half-away-from-zero").  Used only to compare the spec's
formula with the code's `np.rint`. -/
def rndAway (x : ℚ) : ℤ :=
  if Int.fract x < 1/2 then ⌊x⌋
  else if 1/2 < Int.fract x then ⌊x⌋ + 1
  else if x < 0 then ⌊x⌋ else ⌊x⌋ + 1

/-! ## LevelSelector (`_levels_from_num_colors`, `pixforge/dithers/__init__.py`) -/

/-- Largest `m` with `m^3 ≤ n` (helper for the cube-root guess). -/
def floorCbrt (n : ℕ) : ℕ := (List.range (n+1)).countP (fun m => (m+1)^3 ≤ n)

/-- The initial guess `int(round(num_colors ** (1/3)))` of
`_levels_from_num_colors`.  Modelled as the exact nearest integer to the
real cube root (a tie `n^(1/3) = m + 1/2` would need `8n = (2m+1)^3`,
impossible by parity, so the nearest integer is unambiguous; the float64
value agrees with it on the whole validated range, and the two
adjustment loops below make the final result independent of the guess). -/
def cbrtGuess (n : ℕ) : ℕ :=
  if 8*n < (2*(floorCbrt n)+1)^3 then floorCbrt n else floorCbrt n + 1

/-- The loop `while L ** 3 > n and L > 2: L -= 1`.  The first argument
is fuel; `fuel = L` suffices since `L` decreases by one each step. -/
def levelsDown : ℕ → ℕ → ℕ → ℕ
  | 0, L, _ => L
  | fuel+1, L, n => if L^3 > n ∧ L > 2 then levelsDown fuel (L-1) n else L

/-- The loop `while (L + 1) ** 3 ≤ n: L += 1`.  The first argument is
fuel; `fuel = n` suffices since the loop keeps `(L+1)^3 ≤ n`. -/
def levelsUp : ℕ → ℕ → ℕ → ℕ
  | 0, L, _ => L
  | fuel+1, L, n => if (L+1)^3 ≤ n then levelsUp fuel (L+1) n else L

/-- `_levels_from_num_colors` (`pixforge/dithers/__init__.py`): per-channel
level count `L` with `L^3 ≲ num_colors`.  The `num_colors < 2` raise is
modelled at the caller (`apply_dither` checks it first). -/
def levels_from_num_colors (n : ℕ) : ℕ :=
  let g := max 2 (cbrtGuess n)
  let a := levelsDown g g n
  let b := levelsUp n a n
  max 2 b

/-! ## UniformQuantizer (`_quantize_none`, `pixforge/dithers/__init__.py`) -/

/-- `_quantize_none` from `pixforge/dithers/__init__.py` on a single
sample: uniform per-channel quantization to `L` levels.
`np.rint(x).clip(lo, hi)` is `min (max (rnd x) lo) hi`. -/
def quantize_none (L : ℕ) (v : ℚ) : ℤ :=
  if L ≤ 1 then 0
  else
    min (max (rnd ((min (max ((rnd (v * ((L:ℚ) - 1) / 255) : ℤ) : ℚ) 0) ((L:ℚ) - 1)) *
      (255 / ((L:ℚ) - 1)))) 0) 255

/-- The spec's §4.2 formula with its stated half-away-from-zero
rounding: `level = clamp(round(sample·(L-1)/255), 0, L-1)`;
`output = clamp(round(level·255/(L-1)), 0, 255)`. -/
def quantize_spec_away (L : ℕ) (v : ℚ) : ℤ :=
  if L ≤ 1 then 0
  else
    min (max (rndAway ((min (max ((rndAway (v * ((L:ℚ) - 1) / 255) : ℤ) : ℚ) 0) ((L:ℚ) - 1)) *
      255 / ((L:ℚ) - 1))) 0) 255

/-- The spec's §4.2 formula amended to round half to even (the rounding
the code's `np.rint` actually performs). -/
def quantize_spec_even (L : ℕ) (v : ℚ) : ℤ :=
  if L ≤ 1 then 0
  else
    min (max (rnd ((min (max ((rnd (v * ((L:ℚ) - 1) / 255) : ℤ) : ℚ) 0) ((L:ℚ) - 1)) *
      255 / ((L:ℚ) - 1))) 0) 255

/-- `_quantize_levels` from `pixforge/dithers/floyd.py` (identical in
`atkinson.py` and `sierra.py`): quantize one working-buffer sample to
`L` uniform levels.  Returns the quantized value as a float
(here: `ℚ`), to be written back into the working buffer. -/
def quantize_levels (L : ℕ) (v : ℚ) : ℚ :=
  min (max ((rnd ((min (max ((rnd (v * ((L:ℚ) - 1) / 255) : ℤ) : ℚ) 0) ((L:ℚ) - 1)) *
    (255 / ((L:ℚ) - 1))) : ℤ) : ℚ) 0) 255

/-! ## Image buffers and the error-diffusion engine -/

/-- An H×W×3 image buffer.  Samples of the `uint8` input and output
live in `[0,255] ⊆ ℤ`; the shape is carried by the `H`/`W` fields and
sampling is total (out-of-range reads are irrelevant to every theorem,
which only quantifies over `y < H`, `x < W`). -/
structure Img where
  H : ℕ
  W : ℕ
  px : ℕ → ℕ → Fin 3 → ℤ

/-- A per-channel float32 working buffer, idealized to `ℚ`. -/
abbrev Buf := ℕ → ℕ → ℚ

/-- Write one cell of a working buffer. -/
def upd (w : Buf) (y x : ℕ) (v : ℚ) : Buf :=
  fun y' x' => if y' = y ∧ x' = x then v else w y' x'

/-- `work[y, x] += v`. -/
def addAt (w : Buf) (y x : ℕ) (v : ℚ) : Buf := upd w y x (w y x + v)

/-- One channel of an image, viewed as a working buffer
(`arr.astype(np.float32)`). -/
def chanOf (img : Img) (c : Fin 3) : Buf := fun y x => ((img.px y x c : ℤ) : ℚ)

/-- The type of an error-distribution step: given image bounds, the scan
direction, the current cell and its quantization error, update the
working buffer. -/
abbrev Spread := ℕ → ℕ → ℤ → ℕ → ℕ → ℚ → Buf → Buf

/-- Generic kernel-table error distribution: for each `(Δrow, Δcol, weight)`
entry (`Δcol` taken in the scan direction), add `err·weight` at the
offset cell, silently dropping offsets outside the image bounds. -/
def tableSpread (K : List (ℕ × ℤ × ℚ)) : Spread := fun H W dir y x err w =>
  K.foldl (fun w e =>
    if y + e.1 < H ∧ 0 ≤ (x:ℤ) + e.2.1 * dir ∧ (x:ℤ) + e.2.1 * dir < (W:ℤ) then
      addAt w (y + e.1) ((x:ℤ) + e.2.1 * dir).toNat (err * e.2.2)
    else w) w

/-- The error distribution of the pure-Python loop of
`dither_floyd` (`pixforge/dithers/floyd.py`): kernel `*  7 / 3 5 1`
normalized by 16, `nx = x + dir`, `px = x - dir`, row `y+1` guarded as
in the source. -/
def floydSpread : Spread := fun H W dir y x err w =>
  let nx : ℤ := (x:ℤ) + dir
  let w1 := if 0 ≤ nx ∧ nx < (W:ℤ) then addAt w y nx.toNat (err * (7/16)) else w
  if y + 1 < H then
    let px : ℤ := (x:ℤ) - dir
    let w2 := if 0 ≤ px ∧ px < (W:ℤ) then addAt w1 (y+1) px.toNat (err * (3/16)) else w1
    let w3 := addAt w2 (y+1) x (err * (5/16))
    if 0 ≤ nx ∧ nx < (W:ℤ) then addAt w3 (y+1) nx.toNat (err * (1/16)) else w3
  else w1

/-- The error distribution of the pure-Python loop of `dither_atkinson`
(`pixforge/dithers/atkinson.py`): six neighbors, weight `0.125 = 1/8`
each. -/
def atkinsonSpread : Spread := fun H W dir y x err w =>
  let n1 : ℤ := (x:ℤ) + dir
  let n2 : ℤ := (x:ℤ) + 2*dir
  let p1 : ℤ := (x:ℤ) - dir
  let w1 := if 0 ≤ n1 ∧ n1 < (W:ℤ) then addAt w y n1.toNat (err * (1/8)) else w
  let w2 := if 0 ≤ n2 ∧ n2 < (W:ℤ) then addAt w1 y n2.toNat (err * (1/8)) else w1
  let w3 :=
    if y + 1 < H then
      let a := if 0 ≤ p1 ∧ p1 < (W:ℤ) then addAt w2 (y+1) p1.toNat (err * (1/8)) else w2
      let b := addAt a (y+1) x (err * (1/8))
      if 0 ≤ n1 ∧ n1 < (W:ℤ) then addAt b (y+1) n1.toNat (err * (1/8)) else b
    else w2
  if y + 2 < H then addAt w3 (y+2) x (err * (1/8)) else w3

/-- The error distribution of the pure-Python loop of `dither_sierra`
(`pixforge/dithers/sierra.py`): Sierra-3 kernel normalized by 32. -/
def sierraSpread : Spread := fun H W dir y x err w =>
  let n1 : ℤ := (x:ℤ) + dir
  let n2 : ℤ := (x:ℤ) + 2*dir
  let p1 : ℤ := (x:ℤ) - dir
  let p2 : ℤ := (x:ℤ) - 2*dir
  let w1 := if 0 ≤ n1 ∧ n1 < (W:ℤ) then addAt w y n1.toNat (err * (5/32)) else w
  let w2 := if 0 ≤ n2 ∧ n2 < (W:ℤ) then addAt w1 y n2.toNat (err * (3/32)) else w1
  let w3 :=
    if y + 1 < H then
      let a := if 0 ≤ p2 ∧ p2 < (W:ℤ) then addAt w2 (y+1) p2.toNat (err * (2/32)) else w2
      let b := if 0 ≤ p1 ∧ p1 < (W:ℤ) then addAt a (y+1) p1.toNat (err * (4/32)) else a
      let c := addAt b (y+1) x (err * (5/32))
      let d := if 0 ≤ n1 ∧ n1 < (W:ℤ) then addAt c (y+1) n1.toNat (err * (4/32)) else c
      if 0 ≤ n2 ∧ n2 < (W:ℤ) then addAt d (y+1) n2.toNat (err * (2/32)) else d
    else w2
  if y + 2 < H then
    let a := if 0 ≤ p1 ∧ p1 < (W:ℤ) then addAt w3 (y+2) p1.toNat (err * (2/32)) else w3
    let b := addAt a (y+2) x (err * (3/32))
    if 0 ≤ n1 ∧ n1 < (W:ℤ) then addAt b (y+2) n1.toNat (err * (2/32)) else b
  else w3

/-- Kernel table of the Burkes method, as the spec's §4.3 table lists it:
divisor 32; same row `+1:8, +2:4`; next row `−2:2, −1:4, 0:8, +1:4, +2:2`. -/
def burkesKernel : List (ℕ × ℤ × ℚ) :=
  [(0, 1, 8/32), (0, 2, 4/32),
   (1, -2, 2/32), (1, -1, 4/32), (1, 0, 8/32), (1, 1, 4/32), (1, 2, 2/32)]

/-- Process one pixel: quantize the accumulated value, write it back,
and distribute the error `old - new` via `spread`. -/
def stepCell (spread : Spread) (L H W : ℕ) (dir : ℤ) (y x : ℕ) (w : Buf) : Buf :=
  spread H W dir y x (w y x - quantize_levels L (w y x))
    (upd w y x (quantize_levels L (w y x)))

/-- Scan direction of a row: odd rows scan right-to-left when serpentine
mode is on. -/
def rowDir (serpentine : Bool) (y : ℕ) : ℤ :=
  if serpentine ∧ y % 2 = 1 then -1 else 1

/-- Visit order of a row: `range(W-1, -1, -1)` on serpentine odd rows,
`range(W)` otherwise. -/
def rowXs (serpentine : Bool) (y W : ℕ) : List ℕ :=
  if serpentine ∧ y % 2 = 1 then (List.range W).reverse else List.range W

/-- Process one row of the scan. -/
def scanRow (spread : Spread) (L H W : ℕ) (serpentine : Bool) (y : ℕ) (w : Buf) : Buf :=
  (rowXs serpentine y W).foldl
    (fun w x => stepCell spread L H W (rowDir serpentine y) y x w) w

/-- The full raster scan of the error-diffusion loops: rows top to
bottom. -/
def scanImg (spread : Spread) (L H W : ℕ) (serpentine : Bool) (w0 : Buf) : Buf :=
  (List.range H).foldl (fun w y => scanRow spread L H W serpentine y w) w0

/-- Final conversion `np.clip(np.rint(work), 0, 255).astype(np.uint8)`
of every diffusion module, per cell. -/
def diffuseOut (spread : Spread) (L H W : ℕ) (serpentine : Bool) (chan : Buf)
    (y x : ℕ) : ℤ :=
  min (max (rnd (scanImg spread L H W serpentine chan y x)) 0) 255

/-- `dither_floyd` (`pixforge/dithers/floyd.py`, pure-Python fallback
loop; the Numba path is a float64 re-implementation of the same loop and
is out of scope of this exact-arithmetic embedding). -/
def dither_floyd (img : Img) (L : ℕ) (serpentine : Bool := true) : Img :=
  ⟨img.H, img.W, fun y x c =>
    diffuseOut floydSpread L img.H img.W serpentine (chanOf img c) y x⟩

/-- `dither_atkinson` (`pixforge/dithers/atkinson.py`, fallback loop). -/
def dither_atkinson (img : Img) (L : ℕ) (serpentine : Bool := true) : Img :=
  ⟨img.H, img.W, fun y x c =>
    diffuseOut atkinsonSpread L img.H img.W serpentine (chanOf img c) y x⟩

/-- `dither_sierra` (`pixforge/dithers/sierra.py`, fallback loop). -/
def dither_sierra (img : Img) (L : ℕ) (serpentine : Bool := true) : Img :=
  ⟨img.H, img.W, fun y x c =>
    diffuseOut sierraSpread L img.H img.W serpentine (chanOf img c) y x⟩

/-- Modelled from the spec: `dither_burkes` (`pixforge/dithers/burkes.py`
is imported by `pixforge/dithers/__init__.py` but its source file is not
in the repository snapshot).  Per spec §4.3, it is the generic
error-diffusion engine — serpentine scan (default on), per-channel
diffusion, out-of-bounds offsets dropped — instantiated with the Burkes
kernel table. -/
def dither_burkes (img : Img) (L : ℕ) (serpentine : Bool := true) : Img :=
  ⟨img.H, img.W, fun y x c =>
    diffuseOut (tableSpread burkesKernel) L img.H img.W serpentine (chanOf img c) y x⟩

/-- `_quantize_none` applied to a whole image (method `"none"`). -/
def quantize_none_img (img : Img) (L : ℕ) : Img :=
  ⟨img.H, img.W, fun y x c => quantize_none L (chanOf img c y x)⟩

/-! ## Ordered/Bayer dithering (`pixforge/dithers/bayer.py`) -/

/-- The recursive Bayer-matrix construction `build` of `_bayer_matrix`:
base case `k = 1` is `[[0]]`; for larger `k`, the four `np.block`
quadrants are `4P+0` top-left, `4P+2` top-right, `4P+3` bottom-left,
`4P+1` bottom-right of the half-size matrix `P`.  The first argument is
fuel (the source recurses on `k // 2`; fuel `k` suffices since `k`
halves each step). -/
def bayer_build : ℕ → ℕ → ℕ → ℕ → ℤ
  | 0, _, _, _ => 0
  | fuel+1, k, y, x =>
    if k ≤ 1 then 0
    else
      if y < k / 2 then
        (if x < k / 2 then 4 * bayer_build fuel (k / 2) y x
         else 4 * bayer_build fuel (k / 2) y (x - k / 2) + 2)
      else
        (if x < k / 2 then 4 * bayer_build fuel (k / 2) (y - k / 2) x + 3
         else 4 * bayer_build fuel (k / 2) (y - k / 2) (x - k / 2) + 1)

/-- `_bayer_matrix(n)` (`pixforge/dithers/bayer.py`): `none` models the
`ValueError` raised when `n & (n-1) != 0 or n <= 0`. -/
def bayer_matrix (n : ℕ) : Option (ℕ → ℕ → ℤ) :=
  if n &&& (n - 1) ≠ 0 ∨ n = 0 then none else some (bayer_build n n)

/-- The values of the `n×n` Bayer matrix as a flat list. -/
def bayerList (n : ℕ) : List ℤ :=
  (List.range n).flatMap (fun y => (List.range n).map (fun x => bayer_build n n y x))

/-- The tiled normalized threshold map of `dither_bayer`:
`T = M/n² − 0.5` tiled by `np.tile(T, (ty, tx))[:H, :W]`, whose entry at
`(y, x)` is `T (y mod n) (x mod n)`. -/
def bayerThresh (size : ℕ) (y x : ℕ) : ℚ :=
  (bayer_build size size (y % size) (x % size) : ℚ) / ((size * size : ℕ) : ℚ) - 1/2

/-- `dither_bayer` (`pixforge/dithers/bayer.py`): ordered dithering.
For `L < 2` the source returns `_quantize_none(arr, 2)` (its local copy
of the uniform quantizer, identical to the one in `__init__.py`).
Otherwise each channel sample `v` is biased by `thresh·step` with
`step = 255/(L-1)`, quantized by `np.floor((v_bias/255)·L).clip(0, L-1)`
and mapped back by `np.rint(q·step).clip(0, 255)`.  (The source's
`if L == 1` branch below the `L < 2` branch is unreachable and not
modelled.) -/
def dither_bayer (img : Img) (L : ℕ) (size : ℕ) : Img :=
  if L < 2 then quantize_none_img img 2
  else
    ⟨img.H, img.W, fun y x c =>
      min (max (rnd (((min (max
        (⌊(chanOf img c y x + bayerThresh size y x * (255 / ((L:ℚ) - 1))) / 255 * (L:ℕ)⌋ : ℤ)
        0) ((L:ℤ) - 1) : ℤ) : ℚ) * (255 / ((L:ℚ) - 1)))) 0) 255⟩

/-! ## DitherDispatcher (`apply_dither`, `pixforge/dithers/__init__.py`) -/

/-- `apply_dither`: validate, compute `L` once, route by lower-cased
method name.  The source's array-shape check (`ndim == 3`,
`shape[2] == 3`) always holds for `Img` by construction. -/
def apply_dither (img : Img) (num_colors : ℕ) (method : String) : Except String Img :=
  if num_colors < 2 then .error "num_colors must be >= 2"
  else
    let L := levels_from_num_colors num_colors
    let m := method.toLower
    if m = "none" then .ok (quantize_none_img img L)
    else if m = "floyd" then .ok (dither_floyd img L)
    else if m = "atkinson" then .ok (dither_atkinson img L)
    else if m = "burkes" then .ok (dither_burkes img L)
    else if m = "sierra" then .ok (dither_sierra img L)
    else if m = "bayer2" then .ok (dither_bayer img L 2)
    else if m = "bayer4" then .ok (dither_bayer img L 4)
    else if m = "bayer8" then .ok (dither_bayer img L 8)
    else .error ("Unknown dithering method: " ++ method)

/-! ## Spec-side formulas and concrete test images -/

/-- The per-pixel formula of `dither_bayer` as the spec §4.4 reads after
amendment: bias the sample by `T(y,x)·step` (`T` the tiled normalized
threshold map, `step = 255/(L-1)`), quantize the biased value by
`floor(v_bias·L/255)` clamped to `[0, L-1]`, and map the level back by
`rnd(q·step)` clamped to `[0,255]`. -/
def bayer_spec_pixel (L size : ℕ) (v : ℚ) (y x : ℕ) : ℤ :=
  min (max (rnd (((min (max
    (⌊(v + bayerThresh size y x * (255 / ((L:ℚ) - 1))) / 255 * (L:ℕ)⌋ : ℤ)
    0) ((L:ℤ) - 1) : ℤ) : ℚ) * (255 / ((L:ℚ) - 1)))) 0) 255

/-- The 2×2 test image of the spec §8 Floyd scenario: every channel is
`[[0, 128], [255, 64]]`. -/
def rampImg : Img :=
  ⟨2, 2, fun y x _ => if y = 0 then (if x = 0 then 0 else 128)
                      else (if x = 0 then 255 else 64)⟩

/-- A 1×1 image with value 128 in every channel. -/
def midGray1 : Img := ⟨1, 1, fun _ _ _ => 128⟩

/-- A 1×1 image with value 255 in every channel. -/
def white1 : Img := ⟨1, 1, fun _ _ _ => 255⟩

/-- Kernel table of the Floyd–Steinberg loop of `floyd.py`
(divisor 16; same row `+1:7`; next row `−1:3, 0:5, +1:1`). -/
def floydKernel : List (ℕ × ℤ × ℚ) :=
  [(0, 1, 7/16), (1, -1, 3/16), (1, 0, 5/16), (1, 1, 1/16)]

/-- Kernel table of the Atkinson loop of `atkinson.py` (six neighbors
at weight 1/8 each; 2/8 of the error is discarded). -/
def atkinsonKernel : List (ℕ × ℤ × ℚ) :=
  [(0, 1, 1/8), (0, 2, 1/8), (1, -1, 1/8), (1, 0, 1/8), (1, 1, 1/8), (2, 0, 1/8)]

/-- Kernel table of the Sierra-3 loop of `sierra.py` (divisor 32). -/
def sierraKernel : List (ℕ × ℤ × ℚ) :=
  [(0, 1, 5/32), (0, 2, 3/32),
   (1, -2, 2/32), (1, -1, 4/32), (1, 0, 5/32), (1, 1, 4/32), (1, 2, 2/32),
   (2, -1, 2/32), (2, 0, 3/32), (2, 1, 2/32)]

/-- `v` is (the float of) one of the `L` per-channel output levels
`rnd (i·255/(L-1))`, `0 ≤ i ≤ L-1`. -/
def IsLevel (L : ℕ) (v : ℚ) : Prop :=
  ∃ i : ℤ, 0 ≤ i ∧ i ≤ (L:ℤ) - 1 ∧
    v = ((rnd ((i:ℚ) * (255 / ((L:ℚ) - 1))) : ℤ) : ℚ)

/-- A spread function only modifies in-range cells strictly ahead of the
current cell `(y, x)` in scan order: cells of earlier rows, the current
cell itself, and already-visited cells of the current row are left
untouched.  This is the property of every error-diffusion kernel here
(error flows only toward not-yet-visited cells). -/
def SpreadAhead (spread : Spread) : Prop :=
  ∀ H W : ℕ, ∀ dir : ℤ, ∀ y x : ℕ, ∀ err : ℚ, ∀ w : Buf, ∀ y' x' : ℕ,
    (dir = 1 ∨ dir = -1) → y' < H → x' < W →
    (y' < y ∨ (y' = y ∧ ((dir = 1 ∧ x' ≤ x) ∨ (dir = -1 ∧ x ≤ x')))) →
    spread H W dir y x err w y' x' = w y' x'

/-! ## Theorems: rounding -/

lemma rnd_intCast (k : ℤ) : rnd (k : ℚ) = k := by
  unfold rnd
  simp [Int.fract_intCast]

lemma abs_sub_rnd (x : ℚ) : |x - (rnd x : ℚ)| ≤ 1/2 := by
  unfold rnd
  have hfl : (⌊x⌋ : ℚ) = x - Int.fract x := by
    rw [Int.fract]; ring
  have h0 : 0 ≤ Int.fract x := Int.fract_nonneg x
  have h1 : Int.fract x < 1 := Int.fract_lt_one x
  split_ifs with hc1 hc2 hc3 <;>
    · rw [abs_le]; push_cast [hfl]; constructor <;> linarith

lemma rnd_eq_of_abs_lt {x : ℚ} {k : ℤ} (h : |x - (k : ℚ)| < 1/2) : rnd x = k := by
  rw [abs_lt] at h
  obtain ⟨h1, h2⟩ := h
  rcases le_or_lt (k : ℚ) x with hge | hlt
  · have hfl : ⌊x⌋ = k := by
      rw [Int.floor_eq_iff]
      constructor
      · exact_mod_cast hge
      · linarith
    have hfr : Int.fract x < 1/2 := by
      rw [Int.fract, hfl]; linarith
    unfold rnd
    rw [if_pos hfr, hfl]
  · have hfl : ⌊x⌋ = k - 1 := by
      rw [Int.floor_eq_iff]
      constructor
      · push_cast; linarith
      · push_cast; linarith
    have hfr : 1/2 < Int.fract x := by
      rw [Int.fract, hfl]; push_cast; linarith
    unfold rnd
    rw [if_neg (by linarith), if_pos hfr, hfl]
    ring

lemma rnd_nonneg {x : ℚ} (h : 0 ≤ x) : 0 ≤ rnd x := by
  have := abs_sub_rnd x
  rw [abs_le] at this
  have h2 : (-1 : ℚ) < (rnd x : ℚ) := by linarith [this.2]
  have h3 : (-1 : ℤ) < rnd x := by exact_mod_cast h2
  omega

lemma rnd_le_of_le {x : ℚ} {m : ℤ} (h : x ≤ (m : ℚ)) : rnd x ≤ m := by
  have := abs_sub_rnd x
  rw [abs_le] at this
  have h2 : (rnd x : ℚ) ≤ (m : ℚ) + 1/2 := by linarith [this.1]
  have : rnd x < m + 1 := by
    have : (rnd x : ℚ) < (m : ℚ) + 1 := by linarith
    exact_mod_cast this
  omega

/-! ## Arithmetic facts about the quantizer -/

lemma sub_one_pos {L : ℕ} (hL : 2 ≤ L) : (0:ℚ) < (L:ℚ) - 1 := by
  have h : (2:ℚ) ≤ (L:ℚ) := by exact_mod_cast hL
  linarith

lemma rnd_level_nonneg {L : ℕ} (hL : 2 ≤ L) {i : ℤ} (hi0 : 0 ≤ i) :
    0 ≤ rnd ((i:ℚ) * (255 / ((L:ℚ) - 1))) := by
  have hpos := sub_one_pos hL
  apply rnd_nonneg
  have hi : (0:ℚ) ≤ (i:ℚ) := by exact_mod_cast hi0
  positivity

lemma rnd_level_le {L : ℕ} (hL : 2 ≤ L) {i : ℤ} (hi1 : i ≤ (L:ℤ) - 1) :
    rnd ((i:ℚ) * (255 / ((L:ℚ) - 1))) ≤ 255 := by
  have hpos := sub_one_pos hL
  have hle : (i:ℚ) ≤ (L:ℚ) - 1 := by exact_mod_cast hi1
  have h1 : (i:ℚ) * (255 / ((L:ℚ) - 1)) ≤ ((L:ℚ) - 1) * (255 / ((L:ℚ) - 1)) := by
    apply mul_le_mul_of_nonneg_right hle
    positivity
  have h2 : ((L:ℚ) - 1) * (255 / ((L:ℚ) - 1)) = 255 := by
    field_simp
  have h3 : (i:ℚ) * (255 / ((L:ℚ) - 1)) ≤ ((255:ℤ):ℚ) := by
    push_cast
    linarith
  exact rnd_le_of_le h3

/-- Every output of `_quantize_none` (for `L ≥ 2`) is one of the `L`
levels `rnd (i·255/(L-1))`, `0 ≤ i ≤ L-1`. -/
lemma quantize_none_eq_level {L : ℕ} (hL : 2 ≤ L) (v : ℚ) :
    ∃ i : ℤ, 0 ≤ i ∧ i ≤ (L:ℤ) - 1 ∧
      quantize_none L v = rnd ((i:ℚ) * (255 / ((L:ℚ) - 1))) := by
  have hL1 : ¬ L ≤ 1 := by omega
  refine ⟨min (max (rnd (v * ((L:ℚ) - 1) / 255)) 0) ((L:ℤ) - 1), ?_, ?_, ?_⟩
  · have h1 : (0:ℤ) ≤ max (rnd (v * ((L:ℚ) - 1) / 255)) 0 := le_max_right _ _
    have h2 : (0:ℤ) ≤ (L:ℤ) - 1 := by omega
    exact le_min h1 h2
  · exact min_le_right _ _
  · unfold quantize_none
    rw [if_neg hL1]
    have hcast : (((min (max (rnd (v * ((L:ℚ) - 1) / 255)) 0) ((L:ℤ) - 1) : ℤ)) : ℚ) =
        min (max ((rnd (v * ((L:ℚ) - 1) / 255) : ℤ) : ℚ) 0) ((L:ℚ) - 1) := by
      push_cast
      rfl
    rw [← hcast]
    set i : ℤ := min (max (rnd (v * ((L:ℚ) - 1) / 255)) 0) ((L:ℤ) - 1) with hi
    have hi0 : 0 ≤ i := by
      have h1 : (0:ℤ) ≤ max (rnd (v * ((L:ℚ) - 1) / 255)) 0 := le_max_right _ _
      have h2 : (0:ℤ) ≤ (L:ℤ) - 1 := by omega
      exact le_min h1 h2
    have hi1 : i ≤ (L:ℤ) - 1 := min_le_right _ _
    rw [max_eq_left (rnd_level_nonneg hL hi0), min_eq_left (rnd_level_le hL hi1)]

/-- Quantizing a value that is already a level returns it unchanged. -/
lemma quantize_none_fixed {L : ℕ} (hL : 2 ≤ L) {i : ℤ} (hi0 : 0 ≤ i) (hi1 : i ≤ (L:ℤ) - 1) :
    quantize_none L ((rnd ((i:ℚ) * (255 / ((L:ℚ) - 1))) : ℤ) : ℚ) =
      rnd ((i:ℚ) * (255 / ((L:ℚ) - 1))) := by
  have hL1 : ¬ L ≤ 1 := by omega
  have hpos := sub_one_pos hL
  set s : ℚ := 255 / ((L:ℚ) - 1) with hs
  have hs_pos : 0 < s := by rw [hs]; positivity
  set k : ℤ := rnd ((i:ℚ) * s) with hk
  have hk0 : 0 ≤ k := rnd_level_nonneg hL hi0
  have hk255 : k ≤ 255 := rnd_level_le hL hi1
  have hks : |(k:ℚ) - (i:ℚ) * s| ≤ 1/2 := by
    rw [hk, abs_sub_comm]
    exact abs_sub_rnd _
  unfold quantize_none
  rw [if_neg hL1]
  rcases le_or_lt (L:ℤ) 256 with hsmall | hbig
  · -- `L ≤ 256`: the inner rounding recovers `i` exactly
    have hz : rnd ((k:ℚ) * ((L:ℚ) - 1) / 255) = i := by
      rcases eq_or_lt_of_le hsmall with h256 | hlt
      · -- `L = 256`: the step is exactly 1, `k = i`
        have hL256 : L = 256 := by exact_mod_cast h256
        subst hL256
        have hs1 : s = 1 := by rw [hs]; norm_num
        have hki : k = i := by
          rw [hk, hs1, mul_one, rnd_intCast]
        rw [hki]
        apply rnd_eq_of_abs_lt
        have : ((i:ℚ) * ((256:ℕ):ℚ) - (i:ℚ) * ((256:ℕ):ℚ)) = 0 := by ring
        norm_num
      · apply rnd_eq_of_abs_lt
        have hexp : (k:ℚ) * ((L:ℚ) - 1) / 255 - (i:ℚ) =
            ((k:ℚ) - (i:ℚ) * s) * (((L:ℚ) - 1) / 255) := by
          rw [hs]
          field_simp
          ring
        rw [hexp, abs_mul]
        have hfac : |((L:ℚ) - 1) / 255| = ((L:ℚ) - 1) / 255 := abs_of_pos (by positivity)
        rw [hfac]
        have hlt' : ((L:ℚ) - 1) / 255 < 1 := by
          have hq : (L:ℚ) < 256 := by exact_mod_cast hlt
          rw [div_lt_one (by norm_num)]
          linarith
        have hnn : (0:ℚ) ≤ ((L:ℚ) - 1) / 255 := by positivity
        have habs0 : (0:ℚ) ≤ |(k:ℚ) - (i:ℚ) * s| := abs_nonneg _
        nlinarith [hks, hlt', hnn, habs0]
    rw [hz]
    have hcast : (((min (max i 0) ((L:ℤ) - 1) : ℤ)) : ℚ) =
        min (max ((i:ℤ) : ℚ) 0) ((L:ℚ) - 1) := by
      push_cast
      rfl
    have hclip : min (max ((i:ℤ) : ℚ) 0) ((L:ℚ) - 1) = (i:ℚ) := by
      rw [← hcast]
      rw [max_eq_left hi0, min_eq_left hi1]
    rw [hclip]
    rw [← hs, ← hk]
    rw [max_eq_left hk0, min_eq_left hk255]
  · -- `L > 256`: the step is < 1, re-rounding lands back on `k`
    have hv0 : (0:ℚ) ≤ (k:ℚ) * ((L:ℚ) - 1) / 255 := by
      have : (0:ℚ) ≤ (k:ℚ) := by exact_mod_cast hk0
      positivity
    have hvle : (k:ℚ) * ((L:ℚ) - 1) / 255 ≤ (((L:ℤ) - 1 : ℤ) : ℚ) := by
      have h1 : (k:ℚ) ≤ 255 := by exact_mod_cast hk255
      have h2 : (0:ℚ) < (L:ℚ) - 1 := hpos
      push_cast
      rw [div_le_iff₀ (by norm_num : (0:ℚ) < 255)]
      nlinarith
    set z : ℤ := rnd ((k:ℚ) * ((L:ℚ) - 1) / 255) with hz
    have hz0 : 0 ≤ z := rnd_nonneg hv0
    have hz1 : z ≤ (L:ℤ) - 1 := rnd_le_of_le hvle
    have hcast : (((min (max z 0) ((L:ℤ) - 1) : ℤ)) : ℚ) =
        min (max ((z:ℤ) : ℚ) 0) ((L:ℚ) - 1) := by
      push_cast
      rfl
    have hclip : min (max ((z:ℤ) : ℚ) 0) ((L:ℚ) - 1) = (z:ℚ) := by
      rw [← hcast, max_eq_left hz0, min_eq_left hz1]
    rw [hclip]
    have hfinal : rnd ((z:ℚ) * (255 / ((L:ℚ) - 1))) = k := by
      apply rnd_eq_of_abs_lt
      have habs : |(z:ℚ) - (k:ℚ) * ((L:ℚ) - 1) / 255| ≤ 1/2 := by
        rw [hz, abs_sub_comm]
        exact abs_sub_rnd _
      have hexp : (z:ℚ) * (255 / ((L:ℚ) - 1)) - (k:ℚ) =
          ((z:ℚ) - (k:ℚ) * ((L:ℚ) - 1) / 255) * (255 / ((L:ℚ) - 1)) := by
        field_simp
        ring
      rw [hexp, abs_mul]
      have hfac : |255 / ((L:ℚ) - 1)| = 255 / ((L:ℚ) - 1) := abs_of_pos (by positivity)
      rw [hfac]
      have hslt : 255 / ((L:ℚ) - 1) < 1 := by
        rw [div_lt_one hpos]
        have : (256:ℚ) < (L:ℚ) := by exact_mod_cast hbig
        linarith
      have hnn : (0:ℚ) ≤ 255 / ((L:ℚ) - 1) := by positivity
      have habs0 : (0:ℚ) ≤ |(z:ℚ) - (k:ℚ) * ((L:ℚ) - 1) / 255| := abs_nonneg _
      nlinarith [habs, hslt, hnn, habs0]
    rw [← hs] at hfinal ⊢
    rw [hfinal]
    rw [max_eq_left hk0, min_eq_left hk255]

/-! ## Cube bracketing -/

lemma cube_bracket_unique {a b n : ℕ} (ha : a^3 ≤ n) (ha' : n < (a+1)^3)
    (hb : b^3 ≤ n) (hb' : n < (b+1)^3) : a = b := by
  by_contra hne
  rcases Nat.lt_or_ge a b with h | h
  · have h1 : a + 1 ≤ b := h
    have h2 : (a+1)^3 ≤ b^3 := Nat.pow_le_pow_left h1 3
    omega
  · have hba : b < a := lt_of_le_of_ne h (Ne.symm hne)
    have h1 : b + 1 ≤ a := hba
    have h2 : (b+1)^3 ≤ a^3 := Nat.pow_le_pow_left h1 3
    omega

/-! ## Claim theorems: LevelSelector and UniformQuantizer -/

set_option maxRecDepth 1000000 in
/-- **C2**: for every `num_colors ∈ [2,256]`, `_levels_from_num_colors`
returns the unique integer `L ≥ 2` with `L³ ≤ num_colors < (L+1)³`,
except that every `num_colors < 8` returns exactly 2. -/
theorem C2_level_selector (n : ℕ) (h2 : 2 ≤ n) (h256 : n ≤ 256) :
    (n < 8 → levels_from_num_colors n = 2) ∧
    (8 ≤ n →
      2 ≤ levels_from_num_colors n ∧
      (levels_from_num_colors n)^3 ≤ n ∧
      n < (levels_from_num_colors n + 1)^3 ∧
      ∀ M : ℕ, 2 ≤ M → M^3 ≤ n → n < (M+1)^3 → M = levels_from_num_colors n) := by
  have key : ∀ m, m < 257 → 2 ≤ m →
      ((m < 8 → levels_from_num_colors m = 2) ∧
       (8 ≤ m → 2 ≤ levels_from_num_colors m ∧
         (levels_from_num_colors m)^3 ≤ m ∧ m < (levels_from_num_colors m + 1)^3)) := by
    with_unfolding_all decide
  obtain ⟨k1, k2⟩ := key n (by omega) h2
  refine ⟨k1, fun h8 => ?_⟩
  obtain ⟨hge, hle, hlt⟩ := k2 h8
  exact ⟨hge, hle, hlt, fun M _ hMle hMlt => cube_bracket_unique hMle hMlt hle hlt⟩

/-- Witness for C2 at `num_colors = 27` (`L = 3`). -/
theorem C2_level_selector_witness :
    (2 ≤ 27 ∧ 27 ≤ 256) ∧
    (8 ≤ 27 →
      2 ≤ levels_from_num_colors 27 ∧
      (levels_from_num_colors 27)^3 ≤ 27 ∧
      27 < (levels_from_num_colors 27 + 1)^3 ∧
      ∀ M : ℕ, 2 ≤ M → M^3 ≤ 27 → 27 < (M+1)^3 → M = levels_from_num_colors 27) :=
  ⟨⟨by norm_num, by norm_num⟩, (C2_level_selector 27 (by norm_num) (by norm_num)).2⟩

/-- **C3, counterexample**: at sample `v = 127.5` (a value of non-integer
precision, as the claim admits) with `L = 2`, the code returns 0 while the
claimed half-away-from-zero formula returns 255: `round(127.5·1/255) =
round(0.5)` is 0 under the code's `np.rint` (ties to even) but 1 under
rounding half away from zero. -/
theorem C3_counterexample :
    (0:ℚ) ≤ 255/2 ∧ (255/2:ℚ) ≤ 255 ∧
    quantize_none 2 (255/2) = 0 ∧ quantize_spec_away 2 (255/2) = 255 ∧
    quantize_none 2 (255/2) ≠ quantize_spec_away 2 (255/2) := by
  refine ⟨by norm_num, by norm_num, ?_, ?_, ?_⟩ <;> with_unfolding_all decide

/-- **C3 (amended)**: for every sample `v ∈ [0,255]` (any precision) and
every `L`, the uniform quantizer returns
`clamp(round(level·255/(L-1)), 0, 255)` with
`level = clamp(round(v·(L-1)/255), 0, L-1)` where `round` is IEEE
round-half-to-even (`np.rint`), not half-away-from-zero; and for
`L ≤ 1` the output is 0. -/
theorem C3_quantizer_formula (L : ℕ) (v : ℚ) (h0 : 0 ≤ v) (h255 : v ≤ 255) :
    quantize_none L v = quantize_spec_even L v ∧ (L ≤ 1 → quantize_none L v = 0) := by
  constructor
  · unfold quantize_none quantize_spec_even
    split_ifs with h
    · rfl
    · rw [mul_div_assoc, mul_div_assoc]
  · intro h1
    unfold quantize_none
    rw [if_pos h1]

/-- Witness for C3 (amended) at `v = 100`, `L = 3`. -/
theorem C3_quantizer_formula_witness :
    (0:ℚ) ≤ 100 ∧ (100:ℚ) ≤ 255 ∧
    (quantize_none 3 100 = quantize_spec_even 3 100 ∧ (3 ≤ 1 → quantize_none 3 100 = 0)) :=
  ⟨by norm_num, by norm_num, C3_quantizer_formula 3 100 (by norm_num) (by norm_num)⟩

/-- **C9**: quantizing an already-quantized value with the same `L ≥ 2`
returns it unchanged: for every `u ∈ [0,255]` and `L ≥ 2`,
`quantize_none L (quantize_none L u) = quantize_none L u`. -/
theorem C9_quantizer_idempotent (L : ℕ) (hL : 2 ≤ L) (u : ℚ)
    (h0 : 0 ≤ u) (h255 : u ≤ 255) :
    quantize_none L ((quantize_none L u : ℤ) : ℚ) = quantize_none L u := by
  obtain ⟨i, hi0, hi1, hq⟩ := quantize_none_eq_level hL u
  rw [hq]
  exact quantize_none_fixed hL hi0 hi1

/-- Witness for C9 at `u = 100`, `L = 3`. -/
theorem C9_quantizer_idempotent_witness :
    2 ≤ 3 ∧ (0:ℚ) ≤ 100 ∧ (100:ℚ) ≤ 255 ∧
    quantize_none 3 ((quantize_none 3 100 : ℤ) : ℚ) = quantize_none 3 100 :=
  ⟨by norm_num, by norm_num, by norm_num,
    C9_quantizer_idempotent 3 (by norm_num) 100 (by norm_num) (by norm_num)⟩

/-! ## Theorems: Bayer matrix and ordered dithering -/

lemma testBit_of_bracket {x b : ℕ} (h1 : 2^b ≤ x) (h2 : x < 2^(b+1)) :
    x.testBit b = true := by
  rw [Nat.testBit_to_div_mod]
  have h2' : x < 2 * 2^b := by
    have hp : 2^(b+1) = 2 * 2^b := by rw [Nat.pow_succ]; ring
    omega
  have hdiv : x / 2^b = 1 := by
    apply Nat.div_eq_of_lt_le
    · simpa using h1
    · have : (1 + 1) * 2^b = 2 * 2^b := by ring
      omega
  simp [hdiv]

set_option maxRecDepth 40000 in
/-- **C7**: for `n ∈ {2,4,8}`, `_bayer_matrix(n)` returns the recursively
built `n×n` matrix, which contains each integer in `[0, n²)` exactly
once; for every non-power-of-two `n` it fails with the invalid-argument
error. -/
theorem C7_bayer_matrix :
    (bayer_matrix 2 = some (bayer_build 2 2) ∧
      ∀ v ∈ List.range (2*2), (bayerList 2).count (v:ℤ) = 1) ∧
    (bayer_matrix 4 = some (bayer_build 4 4) ∧
      ∀ v ∈ List.range (4*4), (bayerList 4).count (v:ℤ) = 1) ∧
    (bayer_matrix 8 = some (bayer_build 8 8) ∧
      ∀ v ∈ List.range (8*8), (bayerList 8).count (v:ℤ) = 1) ∧
    (∀ n : ℕ, (¬ ∃ e : ℕ, n = 2^e) → bayer_matrix n = none) := by
  refine ⟨⟨by with_unfolding_all rfl, by with_unfolding_all decide⟩,
          ⟨by with_unfolding_all rfl, by with_unfolding_all decide⟩,
          ⟨by with_unfolding_all rfl, by with_unfolding_all decide⟩, ?_⟩
  intro n hne
  unfold bayer_matrix
  rcases Nat.eq_zero_or_pos n with h0 | hpos
  · rw [if_pos (Or.inr h0)]
  · have hn0 : n ≠ 0 := Nat.pos_iff_ne_zero.mp hpos
    have hland : n &&& (n-1) ≠ 0 := by
      intro hz
      apply hne
      have hlow : 2^(Nat.log2 n) ≤ n := Nat.log2_self_le hn0
      have hhigh : n < 2^(Nat.log2 n + 1) := Nat.lt_log2_self
      rcases eq_or_lt_of_le hlow with heq | hlt
      · exact ⟨Nat.log2 n, heq.symm⟩
      · exfalso
        have hb1 : (n-1).testBit (Nat.log2 n) = true :=
          testBit_of_bracket (by omega) (by omega)
        have hb2 : n.testBit (Nat.log2 n) = true := testBit_of_bracket hlow hhigh
        have hb3 : (n &&& (n-1)).testBit (Nat.log2 n) = true := by
          rw [Nat.testBit_land, hb1, hb2]
          rfl
        rw [hz, Nat.zero_testBit] at hb3
        exact Bool.false_ne_true hb3
    rw [if_pos (Or.inl hland)]

/-- Witness for the hypothesis of C7 at `n = 3`. -/
theorem C7_bayer_matrix_witness :
    (¬ ∃ e : ℕ, (3:ℕ) = 2^e) ∧ bayer_matrix 3 = none := by
  have h3 : ¬ ∃ e : ℕ, (3:ℕ) = 2^e := by
    rintro ⟨e, he⟩
    match e with
    | 0 => simp at he
    | 1 => simp at he
    | (e+2) =>
      have h4 : 2^2 ≤ 2^(e+2) := Nat.pow_le_pow_right (by norm_num) (by omega)
      rw [← he] at h4
      simp at h4
  exact ⟨h3, C7_bayer_matrix.2.2.2 3 h3⟩

set_option maxRecDepth 40000 in
/-- **C5, counterexample**: on the 1×1 mid-gray image with `L = 3`,
`size = 2`, the code outputs 0 at (0,0), while applying the uniform
quantizer (`_quantize_none`) to the biased value `128 + T(0,0)·step`
gives 128: the code's ordered quantization uses
`floor(v_bias·L/255)`, not the UniformQuantizer's rounding to the
nearest of `L` evenly spaced levels. -/
theorem C5_counterexample :
    (dither_bayer midGray1 3 2).px 0 0 0 = 0 ∧
    quantize_none 3 ((128:ℚ) + bayerThresh 2 0 0 * (255 / ((3:ℚ) - 1))) = 128 ∧
    (dither_bayer midGray1 3 2).px 0 0 0 ≠
      quantize_none 3 ((128:ℚ) + bayerThresh 2 0 0 * (255 / ((3:ℚ) - 1))) := by
  refine ⟨?_, ?_, ?_⟩ <;> with_unfolding_all decide

/-- **C5 (amended)**: for every image, `L ≥ 2` and `size ∈ {2,4,8}`,
each output sample of `dither_bayer` at an in-range pixel is obtained by
biasing the sample by `T(y,x)·step` (`T` the tiled `M/n² - 0.5`,
`step = 255/(L-1)`) and quantizing the biased value with the
floor-based quantizer `floor(v_bias·L/255)` clamped to `[0,L-1]`
(not with the UniformQuantizer), then mapping the level back by
`rnd(q·step)`. -/
theorem C5_bayer_pixel_formula (img : Img) (L size : ℕ) (hL : 2 ≤ L)
    (hsize : size = 2 ∨ size = 4 ∨ size = 8)
    (y x : ℕ) (hy : y < img.H) (hx : x < img.W) (c : Fin 3) :
    (dither_bayer img L size).px y x c =
      bayer_spec_pixel L size (chanOf img c y x) y x := by
  unfold dither_bayer bayer_spec_pixel
  rw [if_neg (show ¬ L < 2 by omega)]

/-- Witness for C5 (amended) on the 1×1 mid-gray image, `L = 3`,
`size = 2`. -/
theorem C5_bayer_pixel_formula_witness :
    (2 ≤ 3 ∧ (0:ℕ) < midGray1.H ∧ (0:ℕ) < midGray1.W ∧ ((2:ℕ) = 2 ∨ (2:ℕ) = 4 ∨ (2:ℕ) = 8)) ∧
    (dither_bayer midGray1 3 2).px 0 0 0 = bayer_spec_pixel 3 2 (chanOf midGray1 0 0 0) 0 0 :=
  ⟨⟨by norm_num, by with_unfolding_all decide, by with_unfolding_all decide, Or.inl rfl⟩,
    C5_bayer_pixel_formula midGray1 3 2 (by norm_num) (Or.inl rfl) 0 0
      (by with_unfolding_all decide) (by with_unfolding_all decide) 0⟩

/-- **C6, counterexample**: with `L = 1 < 2` on the 1×1 white image,
`dither_bayer` returns 255 at (0,0) — the uniform 2-level quantization
of the input — not the all-zero image the claim states. -/
theorem C6_counterexample :
    1 < 2 ∧ (dither_bayer white1 1 2).px 0 0 0 = 255 ∧
    (dither_bayer white1 1 2).px 0 0 0 ≠ 0 := by
  refine ⟨by norm_num, ?_, ?_⟩ <;> with_unfolding_all decide

/-- **C6 (amended)**: for every image and every `L < 2`, `dither_bayer`
returns `_quantize_none(arr, 2)` — the image uniformly quantized to 2
levels per channel — directly, bypassing the threshold computation. -/
theorem C6_bayer_degenerate (img : Img) (size L : ℕ) (hL : L < 2) :
    dither_bayer img L size = quantize_none_img img 2 := by
  unfold dither_bayer
  rw [if_pos hL]

/-- Witness for C6 (amended) at `L = 1` on the 1×1 white image. -/
theorem C6_bayer_degenerate_witness :
    1 < 2 ∧ dither_bayer white1 1 2 = quantize_none_img white1 2 :=
  ⟨by norm_num, C6_bayer_degenerate white1 2 1 (by norm_num)⟩

set_option maxRecDepth 100000 in
set_option maxHeartbeats 2000000 in
/-- **C8**: on the 2×2 ramp image `[[0,128],[255,64]]` (every channel)
with `L = 2` and serpentine on, `dither_floyd` scans row 0 left-to-right
and row 1 right-to-left; pixel (0,1) quantizes to 255 with error −127,
sending `−127·3/16` to (1,0) and `−127·5/16` to (1,1); pixel (1,1) then
quantizes to 0 and sends its error ·7/16 leftward to (1,0), which
quantizes to 255; the final image is `[[0,255],[255,0]]` in every
channel. -/
theorem C8_floyd_serpentine_2x2 :
    rowXs true 0 2 = [0, 1] ∧ rowDir true 0 = 1 ∧
    rowXs true 1 2 = [1, 0] ∧ rowDir true 1 = -1 ∧
    quantize_levels 2 128 = 255 ∧ (128:ℚ) - quantize_levels 2 128 = -127 ∧
    scanRow floydSpread 2 2 2 true 0 (chanOf rampImg 0) 1 0 = 255 + (-127) * (3/16) ∧
    scanRow floydSpread 2 2 2 true 0 (chanOf rampImg 0) 1 1 = 64 + (-127) * (5/16) ∧
    quantize_levels 2 (64 + (-127) * (5/16)) = 0 ∧
    stepCell floydSpread 2 2 2 (rowDir true 1) 1 1
        (scanRow floydSpread 2 2 2 true 0 (chanOf rampImg 0)) 1 0 =
      255 + (-127) * (3/16) + (64 + (-127) * (5/16)) * (7/16) ∧
    quantize_levels 2 (255 + (-127) * (3/16) + (64 + (-127) * (5/16)) * (7/16)) = 255 ∧
    ∀ c : Fin 3,
      (dither_floyd rampImg 2).px 0 0 c = 0 ∧
      (dither_floyd rampImg 2).px 0 1 c = 255 ∧
      (dither_floyd rampImg 2).px 1 0 c = 255 ∧
      (dither_floyd rampImg 2).px 1 1 c = 0 := by
  refine ⟨?_, ?_, ?_, ?_, ?_, ?_, ?_, ?_, ?_, ?_, ?_, ?_⟩
  · with_unfolding_all rfl
  · with_unfolding_all rfl
  · with_unfolding_all rfl
  · with_unfolding_all rfl
  · with_unfolding_all rfl
  · with_unfolding_all rfl
  · with_unfolding_all rfl
  · with_unfolding_all rfl
  · with_unfolding_all rfl
  · with_unfolding_all rfl
  · with_unfolding_all rfl
  · intro c
    fin_cases c <;> refine ⟨?_, ?_, ?_, ?_⟩ <;> with_unfolding_all decide

/-! ## Theorems: DitherDispatcher routing -/

/-- **C1**: for every image and `num_colors ≥ 2`,
`apply_dither(image, num_colors, "burkes")` succeeds and returns the
image error-diffused (serpentine scan) with the Burkes kernel table
(divisor 32; same row `+1:8, +2:4`; next row `−2:2, −1:4, 0:8, +1:4,
+2:2`), with the shared level count computed once by
`_levels_from_num_colors`. -/
theorem C1_burkes_dispatch (img : Img) (n : ℕ) (hn : 2 ≤ n)
    (hpx : ∀ y < img.H, ∀ x < img.W, ∀ c : Fin 3,
      0 ≤ img.px y x c ∧ img.px y x c ≤ 255) :
    apply_dither img n "burkes" = .ok (dither_burkes img (levels_from_num_colors n)) ∧
    dither_burkes img (levels_from_num_colors n) =
      ⟨img.H, img.W, fun y x c => diffuseOut (tableSpread burkesKernel)
        (levels_from_num_colors n) img.H img.W true (chanOf img c) y x⟩ ∧
    burkesKernel = [(0, 1, 8/32), (0, 2, 4/32),
      (1, -2, 2/32), (1, -1, 4/32), (1, 0, 8/32), (1, 1, 4/32), (1, 2, 2/32)] := by
  refine ⟨?_, rfl, rfl⟩
  have hn' : ¬ n < 2 := by omega
  simp only [apply_dither, if_neg hn']
  with_unfolding_all rfl

/-- Witness for C1 on the 1×1 mid-gray image with `num_colors = 8`. -/
theorem C1_burkes_dispatch_witness :
    (2 ≤ 8 ∧ ∀ y < midGray1.H, ∀ x < midGray1.W, ∀ c : Fin 3,
      0 ≤ midGray1.px y x c ∧ midGray1.px y x c ≤ 255) ∧
    apply_dither midGray1 8 "burkes" =
      .ok (dither_burkes midGray1 (levels_from_num_colors 8)) :=
  ⟨⟨by norm_num, by with_unfolding_all decide⟩,
    (C1_burkes_dispatch midGray1 8 (by norm_num) (by with_unfolding_all decide)).1⟩

/-! ## Theorems: locality of the error distributions -/

lemma upd_same (w : Buf) (y x : ℕ) (v : ℚ) : upd w y x v y x = v := by
  simp [upd]

lemma upd_ne (w : Buf) (y x : ℕ) (v : ℚ) {y' x' : ℕ} (h : y' ≠ y ∨ x' ≠ x) :
    upd w y x v y' x' = w y' x' := by
  unfold upd
  rw [if_neg]
  tauto

lemma addAt_preserve (w : Buf) (y x : ℕ) (v : ℚ) {y' x' : ℕ} (h : y' ≠ y ∨ x' ≠ x) :
    addAt w y x v y' x' = w y' x' :=
  upd_ne w y x _ h

lemma tableSpread_nil (H W : ℕ) (dir : ℤ) (y x : ℕ) (err : ℚ) (w : Buf) :
    tableSpread [] H W dir y x err w = w := rfl

lemma tableSpread_cons (e : ℕ × ℤ × ℚ) (K : List (ℕ × ℤ × ℚ)) (H W : ℕ) (dir : ℤ)
    (y x : ℕ) (err : ℚ) (w : Buf) :
    tableSpread (e :: K) H W dir y x err w =
    tableSpread K H W dir y x err
      (if y + e.1 < H ∧ 0 ≤ (x:ℤ) + e.2.1 * dir ∧ (x:ℤ) + e.2.1 * dir < (W:ℤ) then
        addAt w (y + e.1) ((x:ℤ) + e.2.1 * dir).toNat (err * e.2.2)
      else w) := rfl

/-- A kernel whose every offset is on a later row, or on the current row
strictly ahead in scan direction, yields a spread that never touches
already-visited cells. -/
lemma tableSpread_ahead {K : List (ℕ × ℤ × ℚ)}
    (hK : ∀ e ∈ K, 1 ≤ e.1 ∨ (e.1 = 0 ∧ 1 ≤ e.2.1)) :
    SpreadAhead (tableSpread K) := by
  intro H W dir y x err w y' x' hdir hy' hx' hbehind
  revert hK
  induction K generalizing w with
  | nil => intro _; rfl
  | cons e K ih =>
    intro hK
    rw [tableSpread_cons]
    rw [ih _ (fun e' he' => hK e' (List.mem_cons_of_mem _ he'))]
    split_ifs with hc
    · apply addAt_preserve
      have he := hK e (List.mem_cons_self _ _)
      rcases hdir with hd | hd <;> subst hd
      · simp only [mul_one] at hc ⊢
        omega
      · simp only [mul_neg_one] at hc ⊢
        omega
    · rfl

lemma burkesKernel_ahead : SpreadAhead (tableSpread burkesKernel) :=
  tableSpread_ahead (by decide)

lemma floydKernel_ahead : SpreadAhead (tableSpread floydKernel) :=
  tableSpread_ahead (by decide)

lemma atkinsonKernel_ahead : SpreadAhead (tableSpread atkinsonKernel) :=
  tableSpread_ahead (by decide)

lemma sierraKernel_ahead : SpreadAhead (tableSpread sierraKernel) :=
  tableSpread_ahead (by decide)

/-- The inline Floyd–Steinberg distribution of `floyd.py` equals the
kernel-table distribution at every in-range cell. -/
lemma floydSpread_eq_table (H W : ℕ) (dir : ℤ) (y x : ℕ) (err : ℚ) (w : Buf)
    (hy : y < H) (hx : x < W) :
    floydSpread H W dir y x err w = tableSpread floydKernel H W dir y x err w := by
  have hx' : (x:ℤ) < (W:ℤ) := by exact_mod_cast hx
  have hx0 : (0:ℤ) ≤ (x:ℤ) := Int.natCast_nonneg x
  simp only [floydSpread, tableSpread, floydKernel, List.foldl_cons, List.foldl_nil,
    one_mul, neg_mul, zero_mul, add_zero, Nat.add_zero, Int.toNat_ofNat,
    ← sub_eq_add_neg, hy, hx', hx0, true_and, and_true, if_true, ite_and]
  split_ifs <;> rfl

/-- The inline Atkinson distribution of `atkinson.py` equals the
kernel-table distribution at every in-range cell. -/
lemma atkinsonSpread_eq_table (H W : ℕ) (dir : ℤ) (y x : ℕ) (err : ℚ) (w : Buf)
    (hy : y < H) (hx : x < W) :
    atkinsonSpread H W dir y x err w = tableSpread atkinsonKernel H W dir y x err w := by
  have hx' : (x:ℤ) < (W:ℤ) := by exact_mod_cast hx
  have hx0 : (0:ℤ) ≤ (x:ℤ) := Int.natCast_nonneg x
  by_cases hr1 : y + 1 < H <;> by_cases hr2 : y + 2 < H <;>
    simp only [atkinsonSpread, tableSpread, atkinsonKernel, List.foldl_cons, List.foldl_nil,
      one_mul, neg_mul, zero_mul, add_zero, Nat.add_zero, Int.toNat_ofNat,
      ← sub_eq_add_neg, hy, hx', hx0, hr1, hr2, true_and, and_true, false_and,
      if_true, if_false] <;>
    split_ifs <;> first | rfl | tauto

/-- The inline Sierra-3 distribution of `sierra.py` equals the
kernel-table distribution at every in-range cell. -/
lemma sierraSpread_eq_table (H W : ℕ) (dir : ℤ) (y x : ℕ) (err : ℚ) (w : Buf)
    (hy : y < H) (hx : x < W) :
    sierraSpread H W dir y x err w = tableSpread sierraKernel H W dir y x err w := by
  have hx' : (x:ℤ) < (W:ℤ) := by exact_mod_cast hx
  have hx0 : (0:ℤ) ≤ (x:ℤ) := Int.natCast_nonneg x
  by_cases hr1 : y + 1 < H <;> by_cases hr2 : y + 2 < H <;>
    simp only [sierraSpread, tableSpread, sierraKernel, List.foldl_cons, List.foldl_nil,
      one_mul, neg_mul, zero_mul, add_zero, Nat.add_zero, Int.toNat_ofNat,
      ← sub_eq_add_neg, hy, hx', hx0, hr1, hr2, true_and, and_true, false_and,
      if_true, if_false] <;>
    split_ifs <;> first | rfl | tauto

/-! ## Theorems: the scan invariant (processed cells hold level values) -/

/-- `_quantize_levels` always returns one of the `L` level values. -/
lemma quantize_levels_isLevel {L : ℕ} (hL : 2 ≤ L) (v : ℚ) :
    IsLevel L (quantize_levels L v) := by
  refine ⟨min (max (rnd (v * ((L:ℚ) - 1) / 255)) 0) ((L:ℤ) - 1),
    le_min (le_max_right _ _) (by omega), min_le_right _ _, ?_⟩
  unfold quantize_levels
  have hcast : (((min (max (rnd (v * ((L:ℚ) - 1) / 255)) 0) ((L:ℤ) - 1) : ℤ)) : ℚ) =
      min (max ((rnd (v * ((L:ℚ) - 1) / 255) : ℤ) : ℚ) 0) ((L:ℚ) - 1) := by
    push_cast
    rfl
  rw [← hcast]
  have hi0 : 0 ≤ min (max (rnd (v * ((L:ℚ) - 1) / 255)) 0) ((L:ℤ) - 1) :=
    le_min (le_max_right _ _) (by omega)
  have hi1 : min (max (rnd (v * ((L:ℚ) - 1) / 255)) 0) ((L:ℤ) - 1) ≤ (L:ℤ) - 1 :=
    min_le_right _ _
  have h0 : (0:ℚ) ≤
      ((rnd ((((min (max (rnd (v * ((L:ℚ) - 1) / 255)) 0) ((L:ℤ) - 1) : ℤ)) : ℚ) *
        (255 / ((L:ℚ) - 1))) : ℤ) : ℚ) := by
    exact_mod_cast rnd_level_nonneg hL hi0
  have h255 : ((rnd ((((min (max (rnd (v * ((L:ℚ) - 1) / 255)) 0) ((L:ℤ) - 1) : ℤ)) : ℚ) *
        (255 / ((L:ℚ) - 1))) : ℤ) : ℚ) ≤ 255 := by
    exact_mod_cast rnd_level_le hL hi1
  rw [max_eq_left h0, min_eq_left h255]

/-- Processing a cell does not modify in-range cells at or behind the
scan position (other than the processed cell itself). -/
lemma stepCell_preserve {spread : Spread} (hs : SpreadAhead spread)
    {L H W : ℕ} {dir : ℤ} {y x : ℕ} {w : Buf} {y' x' : ℕ}
    (hdir : dir = 1 ∨ dir = -1) (hy' : y' < H) (hx' : x' < W)
    (hbehind : y' < y ∨ (y' = y ∧ ((dir = 1 ∧ x' ≤ x) ∨ (dir = -1 ∧ x ≤ x'))))
    (hne : ¬ (y' = y ∧ x' = x)) :
    stepCell spread L H W dir y x w y' x' = w y' x' := by
  unfold stepCell
  rw [hs H W dir y x _ _ y' x' hdir hy' hx' hbehind]
  exact upd_ne _ _ _ _ (by tauto)

/-- Processing a cell stores the quantized value at the cell. -/
lemma stepCell_at {spread : Spread} (hs : SpreadAhead spread)
    {L H W : ℕ} {dir : ℤ} {y x : ℕ} (w : Buf)
    (hdir : dir = 1 ∨ dir = -1) (hy : y < H) (hx : x < W) :
    stepCell spread L H W dir y x w y x = quantize_levels L (w y x) := by
  unfold stepCell
  rw [hs H W dir y x _ _ y x hdir hy hx
    (Or.inr ⟨rfl, hdir.elim (fun h => Or.inl ⟨h, le_refl x⟩)
      (fun h => Or.inr ⟨h, le_refl x⟩)⟩)]
  exact upd_same _ _ _ _

/-- A row fold leaves cells strictly behind every processed position
unchanged. -/
lemma rowFold_preserve {spread : Spread} (hs : SpreadAhead spread)
    {L H W : ℕ} {dir : ℤ} {y : ℕ} (hdir : dir = 1 ∨ dir = -1)
    {y' x' : ℕ} (hy' : y' < H) (hx' : x' < W) :
    ∀ (l : List ℕ) (w : Buf),
      (∀ a ∈ l, a < W) →
      (∀ a ∈ l, y' < y ∨ (y' = y ∧ ((dir = 1 ∧ x' < a) ∨ (dir = -1 ∧ a < x')))) →
      (l.foldl (fun w x => stepCell spread L H W dir y x w) w) y' x' = w y' x' := by
  intro l
  induction l with
  | nil => intro w _ _; rfl
  | cons a t ih =>
    intro w hmem hbehind
    simp only [List.foldl_cons]
    rw [ih _ (fun b hb => hmem b (List.mem_cons_of_mem _ hb))
          (fun b hb => hbehind b (List.mem_cons_of_mem _ hb))]
    have ha := hbehind a (List.mem_cons_self _ _)
    apply stepCell_preserve hs hdir hy' hx'
    · rcases ha with h | ⟨hyy, hcol⟩
      · exact Or.inl h
      · exact Or.inr ⟨hyy, hcol.elim
          (fun hc => Or.inl ⟨hc.1, le_of_lt hc.2⟩)
          (fun hc => Or.inr ⟨hc.1, le_of_lt hc.2⟩)⟩
    · rintro ⟨h1, h2⟩
      rcases ha with h | ⟨hyy, hcol⟩
      · omega
      · rcases hcol with ⟨_, hlt⟩ | ⟨_, hlt⟩ <;> omega

/-- After a row fold over positions sorted in scan order, every
processed cell of the row holds a level value. -/
lemma rowFold_isLevel {spread : Spread} (hs : SpreadAhead spread)
    {L H W : ℕ} (hL : 2 ≤ L) {dir : ℤ} {y : ℕ}
    (hdir : dir = 1 ∨ dir = -1) (hy : y < H) :
    ∀ (l : List ℕ) (w : Buf),
      (∀ a ∈ l, a < W) →
      (dir = 1 → l.Pairwise (· < ·)) →
      (dir = -1 → l.Pairwise (· > ·)) →
      ∀ a ∈ l, IsLevel L ((l.foldl (fun w x => stepCell spread L H W dir y x w) w) y a) := by
  intro l
  induction l with
  | nil => intro w _ _ _ a ha; exact absurd ha (List.not_mem_nil a)
  | cons b t ih =>
    intro w hmem hord1 hord2 a ha
    simp only [List.foldl_cons]
    rcases List.mem_cons.mp ha with rfl | hat
    · have hbW : a < W := hmem a (List.mem_cons_self _ _)
      have hahead : ∀ c ∈ t,
          y < y ∨ (y = y ∧ ((dir = 1 ∧ a < c) ∨ (dir = -1 ∧ c < a))) := by
        intro c hc
        refine Or.inr ⟨rfl, ?_⟩
        rcases hdir with hd | hd
        · exact Or.inl ⟨hd, (List.pairwise_cons.mp (hord1 hd)).1 c hc⟩
        · exact Or.inr ⟨hd, (List.pairwise_cons.mp (hord2 hd)).1 c hc⟩
      rw [rowFold_preserve hs hdir hy hbW t _
            (fun c hc => hmem c (List.mem_cons_of_mem _ hc)) hahead]
      rw [stepCell_at hs w hdir hy hbW]
      exact quantize_levels_isLevel hL _
    · exact ih _ (fun c hc => hmem c (List.mem_cons_of_mem _ hc))
        (fun hd => (List.pairwise_cons.mp (hord1 hd)).2)
        (fun hd => (List.pairwise_cons.mp (hord2 hd)).2) a hat

lemma rowDir_cases (serp : Bool) (y : ℕ) : rowDir serp y = 1 ∨ rowDir serp y = -1 := by
  unfold rowDir
  split_ifs <;> simp

lemma rowXs_mem (serp : Bool) (y W : ℕ) : ∀ a ∈ rowXs serp y W, a < W := by
  unfold rowXs
  split_ifs <;> intro a ha
  · rw [List.mem_reverse] at ha
    exact List.mem_range.mp ha
  · exact List.mem_range.mp ha

lemma rowXs_sorted_asc (serp : Bool) (y W : ℕ) (hd : rowDir serp y = 1) :
    (rowXs serp y W).Pairwise (· < ·) := by
  unfold rowXs
  unfold rowDir at hd
  split_ifs with h
  · rw [if_pos h] at hd
    exact absurd hd (by decide)
  · rw [if_neg h] at hd
    exact List.pairwise_lt_range W

lemma rowXs_sorted_desc (serp : Bool) (y W : ℕ) (hd : rowDir serp y = -1) :
    (rowXs serp y W).Pairwise (· > ·) := by
  unfold rowXs
  unfold rowDir at hd
  split_ifs with h
  · rw [List.pairwise_reverse]
    exact List.pairwise_lt_range W
  · rw [if_neg h] at hd
    exact absurd hd (by decide)

lemma rowXs_complete (serp : Bool) (y W : ℕ) : ∀ x < W, x ∈ rowXs serp y W := by
  intro x hx
  unfold rowXs
  split_ifs
  · rw [List.mem_reverse]
    exact List.mem_range.mpr hx
  · exact List.mem_range.mpr hx

/-- A row scan leaves earlier rows unchanged (at in-range cells). -/
lemma scanRow_preserve {spread : Spread} (hs : SpreadAhead spread)
    {L H W : ℕ} {serp : Bool} {y : ℕ} {y' x' : ℕ}
    (hy' : y' < H) (hx' : x' < W) (habove : y' < y) (w : Buf) :
    scanRow spread L H W serp y w y' x' = w y' x' := by
  unfold scanRow
  exact rowFold_preserve hs (rowDir_cases serp y) hy' hx' _ w (rowXs_mem serp y W)
    (fun a _ => Or.inl habove)

/-- After a row scan, every in-range cell of the row holds a level
value. -/
lemma scanRow_isLevel {spread : Spread} (hs : SpreadAhead spread)
    {L H W : ℕ} {serp : Bool} {y : ℕ} (hL : 2 ≤ L) (hy : y < H) (w : Buf) :
    ∀ x' < W, IsLevel L (scanRow spread L H W serp y w y x') := by
  intro x' hx'
  unfold scanRow
  exact rowFold_isLevel hs hL (rowDir_cases serp y) hy _ w (rowXs_mem serp y W)
    (rowXs_sorted_asc serp y W) (rowXs_sorted_desc serp y W) x'
    (rowXs_complete serp y W x' hx')

/-- Later rows leave a given in-range cell unchanged. -/
lemma imgFold_preserve {spread : Spread} (hs : SpreadAhead spread)
    {L H W : ℕ} {serp : Bool} {y' x' : ℕ} (hy' : y' < H) (hx' : x' < W) :
    ∀ (rows : List ℕ) (w : Buf), (∀ r ∈ rows, y' < r) →
      (rows.foldl (fun w y => scanRow spread L H W serp y w) w) y' x' = w y' x' := by
  intro rows
  induction rows with
  | nil => intro w _; rfl
  | cons r t ih =>
    intro w hbefore
    simp only [List.foldl_cons]
    rw [ih _ (fun b hb => hbefore b (List.mem_cons_of_mem _ hb))]
    exact scanRow_preserve hs hy' hx' (hbefore r (List.mem_cons_self _ _)) w

/-- After folding a sorted list of rows, every processed row holds
level values at all in-range cells. -/
lemma imgFold_isLevel {spread : Spread} (hs : SpreadAhead spread)
    {L H W : ℕ} {serp : Bool} (hL : 2 ≤ L) {x' : ℕ} (hx' : x' < W) :
    ∀ (rows : List ℕ) (w : Buf), (∀ r ∈ rows, r < H) → rows.Pairwise (· < ·) →
      ∀ y ∈ rows,
        IsLevel L ((rows.foldl (fun w y => scanRow spread L H W serp y w) w) y x') := by
  intro rows
  induction rows with
  | nil => intro w _ _ y hy; exact absurd hy (List.not_mem_nil y)
  | cons r t ih =>
    intro w hmem hsort y hyin
    simp only [List.foldl_cons]
    rcases List.mem_cons.mp hyin with rfl | hyt
    · have hrH : y < H := hmem y (List.mem_cons_self _ _)
      rw [imgFold_preserve hs hrH hx' t _ (List.pairwise_cons.mp hsort).1]
      exact scanRow_isLevel hs hL hrH w x' hx'
    · exact ih _ (fun b hb => hmem b (List.mem_cons_of_mem _ hb))
        (List.pairwise_cons.mp hsort).2 y hyt

/-- Main invariant: after the full scan, every in-range working-buffer
cell holds one of the `L` level values. -/
lemma scanImg_isLevel {spread : Spread} (hs : SpreadAhead spread)
    {L H W : ℕ} {serp : Bool} (hL : 2 ≤ L)
    {y x : ℕ} (hy : y < H) (hx : x < W) (w0 : Buf) :
    IsLevel L (scanImg spread L H W serp w0 y x) := by
  unfold scanImg
  exact imgFold_isLevel hs hL hx _ w0 (fun r hr => List.mem_range.mp hr)
    (List.pairwise_lt_range H) y (List.mem_range.mpr hy)

/-- The final per-cell conversion emits exactly the stored level. -/
lemma diffuseOut_level {spread : Spread} (hs : SpreadAhead spread)
    {L H W : ℕ} {serp : Bool} (hL : 2 ≤ L)
    {y x : ℕ} (hy : y < H) (hx : x < W) (chan : Buf) :
    ∃ i : ℤ, 0 ≤ i ∧ i ≤ (L:ℤ) - 1 ∧
      diffuseOut spread L H W serp chan y x = rnd ((i:ℚ) * (255 / ((L:ℚ) - 1))) := by
  obtain ⟨i, h0, h1, hv⟩ := scanImg_isLevel hs hL hy hx chan
  refine ⟨i, h0, h1, ?_⟩
  unfold diffuseOut
  rw [hv, rnd_intCast, max_eq_left (rnd_level_nonneg hL h0),
    min_eq_left (rnd_level_le hL h1)]

/-- Pointwise-equal spreads (at in-range cells) give equal row scans. -/
lemma scanRow_congr {s1 s2 : Spread} {L H W : ℕ} {serp : Bool} {y : ℕ} (hy : y < H)
    (hss : ∀ dir y x err w, y < H → x < W →
      s1 H W dir y x err w = s2 H W dir y x err w) (w : Buf) :
    scanRow s1 L H W serp y w = scanRow s2 L H W serp y w := by
  unfold scanRow
  have key : ∀ (l : List ℕ), (∀ a ∈ l, a < W) → ∀ w : Buf,
      l.foldl (fun w x => stepCell s1 L H W (rowDir serp y) y x w) w =
      l.foldl (fun w x => stepCell s2 L H W (rowDir serp y) y x w) w := by
    intro l
    induction l with
    | nil => intro _ w; rfl
    | cons a t ih =>
      intro hmem w
      simp only [List.foldl_cons]
      have hstep : stepCell s1 L H W (rowDir serp y) y a w =
          stepCell s2 L H W (rowDir serp y) y a w := by
        unfold stepCell
        rw [hss _ y a _ _ hy (hmem a (List.mem_cons_self _ _))]
      rw [hstep]
      exact ih (fun b hb => hmem b (List.mem_cons_of_mem _ hb)) _
  exact key _ (rowXs_mem serp y W) w

/-- Pointwise-equal spreads give equal full scans. -/
lemma scanImg_congr {s1 s2 : Spread} {L H W : ℕ} {serp : Bool}
    (hss : ∀ dir y x err w, y < H → x < W →
      s1 H W dir y x err w = s2 H W dir y x err w) (w0 : Buf) :
    scanImg s1 L H W serp w0 = scanImg s2 L H W serp w0 := by
  unfold scanImg
  have key : ∀ (rows : List ℕ), (∀ r ∈ rows, r < H) → ∀ w : Buf,
      rows.foldl (fun w y => scanRow s1 L H W serp y w) w =
      rows.foldl (fun w y => scanRow s2 L H W serp y w) w := by
    intro rows
    induction rows with
    | nil => intro _ w; rfl
    | cons r t ih =>
      intro hmem w
      simp only [List.foldl_cons]
      rw [scanRow_congr (hmem r (List.mem_cons_self _ _)) hss w]
      exact ih (fun b hb => hmem b (List.mem_cons_of_mem _ hb)) _
  exact key _ (fun r hr => List.mem_range.mp hr) w0

/-! ## Theorems: per-method output levels -/

lemma dither_floyd_px_level {img : Img} {L : ℕ} (hL : 2 ≤ L)
    {y x : ℕ} (hy : y < img.H) (hx : x < img.W) (c : Fin 3) :
    ∃ i : ℤ, 0 ≤ i ∧ i ≤ (L:ℤ) - 1 ∧
      (dither_floyd img L).px y x c = rnd ((i:ℚ) * (255 / ((L:ℚ) - 1))) := by
  have hcong : scanImg floydSpread L img.H img.W true (chanOf img c) =
      scanImg (tableSpread floydKernel) L img.H img.W true (chanOf img c) :=
    scanImg_congr (fun dir y x err w hy hx => floydSpread_eq_table _ _ _ _ _ _ w hy hx) _
  have hpx : (dither_floyd img L).px y x c =
      diffuseOut (tableSpread floydKernel) L img.H img.W true (chanOf img c) y x := by
    show diffuseOut floydSpread L img.H img.W true (chanOf img c) y x = _
    unfold diffuseOut
    rw [hcong]
  rw [hpx]
  exact diffuseOut_level floydKernel_ahead hL hy hx _

lemma dither_atkinson_px_level {img : Img} {L : ℕ} (hL : 2 ≤ L)
    {y x : ℕ} (hy : y < img.H) (hx : x < img.W) (c : Fin 3) :
    ∃ i : ℤ, 0 ≤ i ∧ i ≤ (L:ℤ) - 1 ∧
      (dither_atkinson img L).px y x c = rnd ((i:ℚ) * (255 / ((L:ℚ) - 1))) := by
  have hcong : scanImg atkinsonSpread L img.H img.W true (chanOf img c) =
      scanImg (tableSpread atkinsonKernel) L img.H img.W true (chanOf img c) :=
    scanImg_congr (fun dir y x err w hy hx => atkinsonSpread_eq_table _ _ _ _ _ _ w hy hx) _
  have hpx : (dither_atkinson img L).px y x c =
      diffuseOut (tableSpread atkinsonKernel) L img.H img.W true (chanOf img c) y x := by
    show diffuseOut atkinsonSpread L img.H img.W true (chanOf img c) y x = _
    unfold diffuseOut
    rw [hcong]
  rw [hpx]
  exact diffuseOut_level atkinsonKernel_ahead hL hy hx _

lemma dither_sierra_px_level {img : Img} {L : ℕ} (hL : 2 ≤ L)
    {y x : ℕ} (hy : y < img.H) (hx : x < img.W) (c : Fin 3) :
    ∃ i : ℤ, 0 ≤ i ∧ i ≤ (L:ℤ) - 1 ∧
      (dither_sierra img L).px y x c = rnd ((i:ℚ) * (255 / ((L:ℚ) - 1))) := by
  have hcong : scanImg sierraSpread L img.H img.W true (chanOf img c) =
      scanImg (tableSpread sierraKernel) L img.H img.W true (chanOf img c) :=
    scanImg_congr (fun dir y x err w hy hx => sierraSpread_eq_table _ _ _ _ _ _ w hy hx) _
  have hpx : (dither_sierra img L).px y x c =
      diffuseOut (tableSpread sierraKernel) L img.H img.W true (chanOf img c) y x := by
    show diffuseOut sierraSpread L img.H img.W true (chanOf img c) y x = _
    unfold diffuseOut
    rw [hcong]
  rw [hpx]
  exact diffuseOut_level sierraKernel_ahead hL hy hx _

lemma dither_burkes_px_level {img : Img} {L : ℕ} (hL : 2 ≤ L)
    {y x : ℕ} (hy : y < img.H) (hx : x < img.W) (c : Fin 3) :
    ∃ i : ℤ, 0 ≤ i ∧ i ≤ (L:ℤ) - 1 ∧
      (dither_burkes img L).px y x c = rnd ((i:ℚ) * (255 / ((L:ℚ) - 1))) :=
  diffuseOut_level burkesKernel_ahead hL hy hx _

lemma dither_bayer_px_level {img : Img} {L : ℕ} (size : ℕ) (hL : 2 ≤ L)
    (y x : ℕ) (c : Fin 3) :
    ∃ i : ℤ, 0 ≤ i ∧ i ≤ (L:ℤ) - 1 ∧
      (dither_bayer img L size).px y x c = rnd ((i:ℚ) * (255 / ((L:ℚ) - 1))) := by
  unfold dither_bayer
  rw [if_neg (show ¬ L < 2 by omega)]
  refine ⟨min (max (⌊(chanOf img c y x + bayerThresh size y x * (255 / ((L:ℚ) - 1))) /
      255 * (L:ℕ)⌋) 0) ((L:ℤ) - 1),
    le_min (le_max_right _ _) (by omega), min_le_right _ _, ?_⟩
  have hi0 : 0 ≤ min (max (⌊(chanOf img c y x + bayerThresh size y x * (255 / ((L:ℚ) - 1))) /
      255 * (L:ℕ)⌋) 0) ((L:ℤ) - 1) := le_min (le_max_right _ _) (by omega)
  have hi1 : min (max (⌊(chanOf img c y x + bayerThresh size y x * (255 / ((L:ℚ) - 1))) /
      255 * (L:ℕ)⌋) 0) ((L:ℤ) - 1) ≤ (L:ℤ) - 1 := min_le_right _ _
  show min (max (rnd _) 0) 255 = _
  rw [max_eq_left (rnd_level_nonneg hL hi0), min_eq_left (rnd_level_le hL hi1)]

lemma levels_ge_two (n : ℕ) : 2 ≤ levels_from_num_colors n := by
  show 2 ≤ max 2 (levelsUp n (levelsDown (max 2 (cbrtGuess n)) (max 2 (cbrtGuess n)) n) n)
  exact le_max_left _ _

lemma dither_bayer_H (img : Img) (L size : ℕ) : (dither_bayer img L size).H = img.H := by
  unfold dither_bayer quantize_none_img
  split_ifs <;> rfl

lemma dither_bayer_W (img : Img) (L size : ℕ) : (dither_bayer img L size).W = img.W := by
  unfold dither_bayer quantize_none_img
  split_ifs <;> rfl

/-- **C4**: for every valid H×W×3 uint8 input, every supported method
name, and every `num_colors ≥ 2`, `apply_dither` succeeds, the output
has the input's shape (and `uint8` samples), and every output sample in
every channel is one of the `L` allowed per-channel levels
`rnd (i·255/(L-1))`, `0 ≤ i ≤ L-1`, with `L` the shared level count. -/
theorem C4_output_levels (img : Img) (n : ℕ) (method : String)
    (hm : method ∈ (["none", "floyd", "atkinson", "burkes", "sierra",
      "bayer2", "bayer4", "bayer8"] : List String))
    (hn : 2 ≤ n)
    (hpx : ∀ y < img.H, ∀ x < img.W, ∀ c : Fin 3,
      0 ≤ img.px y x c ∧ img.px y x c ≤ 255) :
    ∃ out : Img, apply_dither img n method = .ok out ∧
      out.H = img.H ∧ out.W = img.W ∧
      ∀ y < out.H, ∀ x < out.W, ∀ c : Fin 3, ∃ i : ℤ,
        0 ≤ i ∧ i ≤ (levels_from_num_colors n : ℤ) - 1 ∧
        out.px y x c =
          rnd ((i:ℚ) * (255 / ((levels_from_num_colors n : ℚ) - 1))) := by
  have hn' : ¬ n < 2 := by omega
  have hL2 : 2 ≤ levels_from_num_colors n := levels_ge_two n
  simp only [List.mem_cons, List.not_mem_nil, or_false] at hm
  rcases hm with rfl | rfl | rfl | rfl | rfl | rfl | rfl | rfl
  · refine ⟨quantize_none_img img (levels_from_num_colors n), ?_, rfl, rfl, ?_⟩
    · simp only [apply_dither, if_neg hn']
      with_unfolding_all rfl
    · intro y _ x _ c
      exact quantize_none_eq_level hL2 (chanOf img c y x)
  · refine ⟨dither_floyd img (levels_from_num_colors n), ?_, rfl, rfl, ?_⟩
    · simp only [apply_dither, if_neg hn']
      with_unfolding_all rfl
    · intro y hy x hx c
      exact @dither_floyd_px_level img (levels_from_num_colors n) hL2 y x hy hx c
  · refine ⟨dither_atkinson img (levels_from_num_colors n), ?_, rfl, rfl, ?_⟩
    · simp only [apply_dither, if_neg hn']
      with_unfolding_all rfl
    · intro y hy x hx c
      exact @dither_atkinson_px_level img (levels_from_num_colors n) hL2 y x hy hx c
  · refine ⟨dither_burkes img (levels_from_num_colors n), ?_, rfl, rfl, ?_⟩
    · simp only [apply_dither, if_neg hn']
      with_unfolding_all rfl
    · intro y hy x hx c
      exact @dither_burkes_px_level img (levels_from_num_colors n) hL2 y x hy hx c
  · refine ⟨dither_sierra img (levels_from_num_colors n), ?_, rfl, rfl, ?_⟩
    · simp only [apply_dither, if_neg hn']
      with_unfolding_all rfl
    · intro y hy x hx c
      exact @dither_sierra_px_level img (levels_from_num_colors n) hL2 y x hy hx c
  · refine ⟨dither_bayer img (levels_from_num_colors n) 2, ?_, ?_, ?_, ?_⟩
    · simp only [apply_dither, if_neg hn']
      with_unfolding_all rfl
    · exact dither_bayer_H img (levels_from_num_colors n) _
    · exact dither_bayer_W img (levels_from_num_colors n) _
    · intro y _ x _ c
      exact dither_bayer_px_level 2 hL2 y x c
  · refine ⟨dither_bayer img (levels_from_num_colors n) 4, ?_, ?_, ?_, ?_⟩
    · simp only [apply_dither, if_neg hn']
      with_unfolding_all rfl
    · exact dither_bayer_H img (levels_from_num_colors n) _
    · exact dither_bayer_W img (levels_from_num_colors n) _
    · intro y _ x _ c
      exact dither_bayer_px_level 4 hL2 y x c
  · refine ⟨dither_bayer img (levels_from_num_colors n) 8, ?_, ?_, ?_, ?_⟩
    · simp only [apply_dither, if_neg hn']
      with_unfolding_all rfl
    · exact dither_bayer_H img (levels_from_num_colors n) _
    · exact dither_bayer_W img (levels_from_num_colors n) _
    · intro y _ x _ c
      exact dither_bayer_px_level 8 hL2 y x c

/-- Witness for C4 on the 1×1 mid-gray image, `num_colors = 8`, method
`"floyd"`. -/
theorem C4_output_levels_witness :
    ("floyd" ∈ (["none", "floyd", "atkinson", "burkes", "sierra",
        "bayer2", "bayer4", "bayer8"] : List String) ∧ 2 ≤ 8 ∧
      (∀ y < midGray1.H, ∀ x < midGray1.W, ∀ c : Fin 3,
        0 ≤ midGray1.px y x c ∧ midGray1.px y x c ≤ 255)) ∧
    ∃ out : Img, apply_dither midGray1 8 "floyd" = .ok out ∧
      out.H = midGray1.H ∧ out.W = midGray1.W ∧
      ∀ y < out.H, ∀ x < out.W, ∀ c : Fin 3, ∃ i : ℤ,
        0 ≤ i ∧ i ≤ (levels_from_num_colors 8 : ℤ) - 1 ∧
        out.px y x c =
          rnd ((i:ℚ) * (255 / ((levels_from_num_colors 8 : ℚ) - 1))) :=
  ⟨⟨by simp, by norm_num, by with_unfolding_all decide⟩,
    C4_output_levels midGray1 8 "floyd" (by simp) (by norm_num)
      (by with_unfolding_all decide)⟩

end Pixforge
